/-
Verification of the consensus benchmarking engine of the
`blockchain-data-subnet` repository.

The engine lives in `neurons/validators/benchmark.py`
(`BenchmarkValidator.run_benchmarks`, `execute_benchmarks`,
`run_benchmark`, `group_responses`) together with the default benchmark
query script supplied by `neurons/remote_config.py`
(`ValidatorConfig.get_benchmark_query_script`).

The embedding below is a shallow, executable translation of that code:

* randomness (`random.shuffle`, `random.randint`, the jitter draw) is
  represented by explicit oracle parameters: a shuffle function, and a
  stream `rand : Nat -> Nat` of draws consumed in program order, the
  n-th draw being reduced modulo the size of the requested interval
  exactly as a uniform draw would be;
* the network transport (`dendrite.query`) is an oracle
  `probe : Nat -> String -> Option (Nat x String)` mapping a responder
  uid and a query string to either a (latency, result) pair or `none`
  (modelling timeout, transport error, `None` response and `None`
  output alike, all of which the source maps to the same failure
  triple);
* scikit-learn's `KMeans(...).fit` is external to the repository and is
  modelled as an oracle `kmeansFn` returning either a label per point
  or a `ValueError` (`Except.error`), which is exactly the interface
  the source consumes (`try ... except ValueError: continue`);
* Python `dict`s are modelled as insertion-ordered association lists
  with the same update semantics; Python exceptions raised by
  `random.randint` on an empty interval are modelled with `Except`.

Latencies (`dendrite.process_time`) are treated as opaque naturals: the
engine only ever copies them into verdicts.
-/
import Mathlib

set_option maxHeartbeats 1000000

namespace BenchSubnet

/-- The fields of a discovery response consumed by the engine:
`resp.output.metadata.network`, `resp.output.start_block_height`,
`resp.output.block_height`. -/
structure MinerOutput where
  network : String
  start_block_height : Int
  block_height : Int
deriving DecidableEq

/-- One entry of `filtered_responses`: a discovery response paired with
the responder's uid (`uid.item()` in the source, a plain integer here). -/
abbrev Resp := MinerOutput × Nat

/-- One probe outcome as returned by `run_benchmark`: the source returns
either `(uid_value, response_time, benchmark_response.output)` or the
uniform failure triple `(None, None, None)`. -/
abbrev Outcome := Option Nat × Option Nat × Option String

/-- The `results` dict of `run_benchmarks`: keyed by the uid component of
an outcome (in the source a valid uid; modelled as `Option Nat` so that
the impossibility of a `none` key is a theorem, not an assumption),
holding `(response_time, result == most_common_result)`. -/
abbrev ResultsMap := List (Option Nat × (Option Nat × Bool))

/-- The transport oracle: responder uid and query string to either
`(process_time, output)` or failure. -/
abbrev Probe := Nat → String → Option (Nat × String)

/-- The relevant fields of `ValidatorConfig` (remote_config.py):
`benchmark_query_diff` (default 10000), `benchmark_query_chunk_size`
(default 5), `benchmark_cluster_size`. -/
structure ValidatorConfig where
  benchmark_query_diff : Int
  benchmark_query_chunk_size : Nat
  benchmark_cluster_size : Nat
deriving DecidableEq

/-- One group produced by `group_responses` for a (network, label) pair:
`'common_start'`, `'common_end'` and `'responses'` (the chunked member
list). -/
structure Cohort where
  common_start : Int
  common_end : Int
  responses : List (List Resp)
deriving DecidableEq

/-- Ordered-dict lookup used throughout (Python `d[k]` / `d.get(k)`). -/
def lookupKey {α β : Type} [DecidableEq α] (k : α) : List (α × β) → Option β
  | [] => none
  | (k', v) :: rest => if k' = k then some v else lookupKey k rest

/-- Python dict assignment `d[k] = v`: replaces in place, else appends. -/
def dictInsert {α β : Type} [DecidableEq α] (k : α) (v : β) : List (α × β) → List (α × β)
  | [] => [(k, v)]
  | (k', v') :: rest => if k' = k then (k, v) :: rest else (k', v') :: dictInsert k v rest

/-- Python `d.setdefault(k, []).append(v)` on an insertion-ordered dict
of lists. -/
def upsertAppend {α β : Type} [DecidableEq α] (k : α) (v : β) :
    List (α × List β) → List (α × List β)
  | [] => [(k, [v])]
  | (k', vs) :: rest =>
    if k' = k then (k', vs ++ [v]) :: rest else (k', vs) :: upsertAppend k v rest

/-- Fuelled worker for `chunkEvery`; fuel at least the list length makes
it total and keeps it reducible by the kernel. -/
def chunkGo {α : Type} (n : Nat) : Nat → List α → List (List α)
  | _, [] => []
  | 0, _ :: _ => []
  | fuel + 1, x :: xs => (x :: xs).take n :: chunkGo n fuel ((x :: xs).drop n)

/-- Python `[group[i:i + chunk_size] for i in range(0, len(group), chunk_size)]`. -/
def chunkEvery {α : Type} (n : Nat) (l : List α) : List (List α) :=
  chunkGo n l.length l

/-- Python `min(...)` over a list of ints (the source only calls it on
nonempty generators; the `[]` case is a dead default). -/
def intMin : List Int → Int
  | [] => 0
  | x :: rest => rest.foldl min x

/-- Number of occurrences of `v` in `xs` (`Counter` count). -/
def countv (xs : List String) (v : String) : Nat :=
  (xs.filter (fun y => y = v)).length

/-- Index of the first occurrence of `v` in `xs` (length if absent);
"first-encountered in outcome order". -/
def idxOfv : List String → String → Nat
  | [], _ => 0
  | x :: rest, v => if x = v then 0 else idxOfv rest v + 1

/-- Drop every occurrence of `v`. -/
def removeVal (v : String) : List String → List String
  | [] => []
  | x :: rest => if x = v then removeVal v rest else x :: removeVal v rest

/-- Fuelled worker for `firstUniq`. -/
def firstUniqGo : Nat → List String → List String
  | _, [] => []
  | 0, _ :: _ => []
  | fuel + 1, x :: rest => x :: firstUniqGo fuel (removeVal x rest)

/-- The distinct values of `xs` in first-occurrence order: the key order
of `collections.Counter(xs)` (insertion order of first occurrences). -/
def firstUniq (l : List String) : List String :=
  firstUniqGo l.length l

/-- Fold of `Counter.most_common(1)`: scan the counter keys keeping the
first key whose count strictly exceeds the current best's count, so ties
keep the earlier (first-encountered) key — the documented behaviour of
`heapq.nlargest(1, ...)` over insertion-ordered counter items. -/
def pickBest (xs : List String) : List String → Option String → Option String
  | [], best => best
  | v :: rest, none => pickBest xs rest (some v)
  | v :: rest, some b =>
    pickBest xs rest (if countv xs b < countv xs v then some v else some b)

/-- `Counter(xs).most_common(1)[0][0]`; `none` when `xs` is empty. -/
def most_common (xs : List String) : Option String :=
  pickBest xs (firstUniq xs) none

/-- `BenchmarkValidator.run_benchmark`: queries one responder, returning
`(uid_value, response_time, output)` on success and the uniform failure
triple `(None, None, None)` on timeout, transport exception, `None`
response or `None` output. -/
def run_benchmark (probe : Probe) (uid : Nat) (benchmark_query : String) : Outcome :=
  match probe uid benchmark_query with
  | none => (none, none, none)
  | some (t, out) => (some uid, some t, some out)

/-- `BenchmarkValidator.execute_benchmarks`: probe every member of the
chunk with the same query, keep the results whose third component
(`result[2]`) is not `None`. -/
def execute_benchmarks (probe : Probe) (responses : List Resp)
    (benchmark_query : String) : List Outcome :=
  ((responses.map (fun r => run_benchmark probe r.2 benchmark_query)).filter
    (fun result => result.2.2.isSome))

/-- The body of the verdict-recording loop of `run_benchmarks`:
`results[uid_value] = (response_time, result == most_common_result)`. -/
def insStep (most_common_result : String) (acc : ResultsMap) (r : Outcome) : ResultsMap :=
  dictInsert r.1 (r.2.1, decide (r.2.2 = some most_common_result)) acc

/-- The consensus-scoring block of `run_benchmarks` for one chunk:
`filtered_result = [output for _, _, output in benchmark_results]`,
`most_common_result, _ = Counter(filtered_result).most_common(1)[0]`,
then `results[uid_value] = (response_time, result == most_common_result)`
for every entry. -/
def scoreChunk (benchmark_results : List Outcome) (results : ResultsMap) : ResultsMap :=
  match most_common (benchmark_results.filterMap (fun r => r.2.2)) with
  | none => results
  | some most_common_result =>
    benchmark_results.foldl (insStep most_common_result) results

/-- Python `random.randint(a, b)`: uniform on the inclusive interval
`[a, b]`, raising `ValueError` when `a > b` (empty range). `choice` is
the oracle draw, reduced modulo the interval size. -/
def randint (choice : Nat) (a b : Int) : Except Unit Int :=
  if b < a then .error () else .ok (a + (choice : Int) % (b - a + 1))

/-- The Cypher query string built by the default script's f-string, for
probed sub-range `[lo, hi]`. -/
def mkQueryString (lo hi : Int) : String :=
  "UNWIND range(" ++ toString lo ++ ", " ++ toString hi ++
    ") AS block_height MATCH (p:Transaction) WHERE p.block_height = block_height RETURN SUM(p.block_height);"

/-- `build_query`'s block-number computation from the default script of
`ValidatorConfig.get_benchmark_query_script`:
`mid_point = start_block + (end_block - start_block) // 2`,
`block_num = random.randint(mid_point, end_block - diff)`. -/
def build_query_block (choice : Nat) (start_block end_block diff : Int) : Except Unit Int := do
  let mid_point := start_block + (end_block - start_block).fdiv 2
  randint choice mid_point (end_block - diff)

/-- `build_query(network, start_block, end_block, diff)` of the default
script: returns the interpolated query string for the probed sub-range
`[block_num, block_num + diff]`. -/
def build_query (choice : Nat) (network : String) (start_block end_block diff : Int) :
    Except Unit String :=
  (build_query_block choice start_block end_block diff).map
    (fun block_num => mkQueryString block_num (block_num + diff))

/-- Executing the default benchmark query script of
`ValidatorConfig.get_benchmark_query_script` in a namespace holding
`network`, `start_block`, `end_block` and `diff`: the script runs
`query = build_query(network, start_block, end_block)` — it does NOT
pass its `diff` variable, so `build_query` uses its own default
parameter `10000` and the engine-supplied (jittered) `diff` is unused. -/
def default_script (choice : Nat) (network : String) (start_block end_block diff : Int) :
    Except Unit String :=
  build_query choice network start_block end_block 10000

/-- The first grouping pass of `group_responses`: partition the
responses by `resp.output.metadata.network` into an insertion-ordered
dict of lists. -/
def networkGroups (responses : List Resp) : List (String × List Resp) :=
  responses.foldl (fun acc r => upsertAppend r.1.network r acc) []

/-- The `(start_block_height, block_height)` points handed to KMeans for
one network's items. -/
def dataPoints (items : List Resp) : List (Int × Int) :=
  items.map (fun r => (r.1.start_block_height, r.1.block_height))

/-- The data KMeans is given for network `net` under `responses` (empty
when the network received no responses). -/
def dataOf (net : String) (responses : List Resp) : List (Int × Int) :=
  dataPoints ((lookupKey net (networkGroups responses)).getD [])

/-- `zip(labels, items)` grouped by label (`grouped_responses`). -/
def labelGroups (labels : List Nat) (items : List Resp) : List (Nat × List Resp) :=
  (labels.zip items).foldl (fun g li => upsertAppend li.1 li.2 g) []

/-- The per-label loop of `group_responses`: shuffle the group, chunk
it, and record the element-wise minima of the members' claimed starts
and ends. -/
def buildCohorts (shuffleFn : List Resp → List Resp) (chunk_size : Nat)
    (grouped : List (Nat × List Resp)) : List (Nat × Cohort) :=
  grouped.map (fun lg =>
    let group := shuffleFn lg.2
    (lg.1,
      { common_start := intMin (group.map (fun r => r.1.start_block_height))
        common_end := intMin (group.map (fun r => r.1.block_height))
        responses := chunkEvery chunk_size group }))

/-- Processing of one network inside `group_responses`: cluster its
points; on `ValueError` skip the network (`continue`); otherwise build
its cohorts. The network gets an entry in `new_groups` only if at least
one label exists. -/
def processNetwork (shuffleFn : List Resp → List Resp)
    (kmeansFn : Nat → List (Int × Int) → Except Unit (List Nat))
    (cluster_size chunk_size : Nat) (ng : String × List Resp) :
    List (String × List (Nat × Cohort)) :=
  match kmeansFn cluster_size (dataPoints ng.2) with
  | .error _ => []
  | .ok labels =>
    let cohorts := buildCohorts shuffleFn chunk_size (labelGroups labels ng.2)
    if cohorts = [] then [] else [(ng.1, cohorts)]

/-- `BenchmarkValidator.group_responses`. -/
def group_responses (shuffleFn : List Resp → List Resp)
    (kmeansFn : Nat → List (Int × Int) → Except Unit (List Nat))
    (cluster_size chunk_size : Nat) (responses : List Resp) :
    List (String × List (Nat × Cohort)) :=
  (networkGroups responses).foldl
    (fun acc ng => acc ++ processNetwork shuffleFn kmeansFn cluster_size chunk_size ng) []

/-- The per-cohort trace of a pass: network, label, the cohort, and the
query synthesized for each of its chunks, in chunk order. -/
abbrev Trace := List (String × Nat × Cohort × List String)

/-- The innermost loop of `run_benchmarks` (`for chunk in
group_info['responses']`): per chunk, draw the jitter
(`randint(0, 100)`), set `diff = benchmark_query_diff - jitter`, execute
the benchmark query script, fan the query out over the chunk, and score
the chunk if any result survived filtering. The random stream is
consumed two draws per chunk (jitter, then `build_query`'s `randint`).
An exception escaping the script (`randint` on an empty interval)
propagates: nothing in the source catches it. -/
def runChunks (cfg : ValidatorConfig) (probe : Probe) (rand : Nat → Nat)
    (network : String) (common_start common_end : Int) :
    List (List Resp) → Nat → ResultsMap → List String →
    Except Unit (Nat × ResultsMap × List String)
  | [], ctr, results, qs => .ok (ctr, results, qs)
  | chunk :: rest, ctr, results, qs => do
    let jitter ← randint (rand ctr) 0 100
    let diff := cfg.benchmark_query_diff - jitter
    let benchmark_query ← default_script (rand (ctr + 1)) network common_start common_end diff
    let benchmark_results := execute_benchmarks probe chunk benchmark_query
    let results' := if benchmark_results = [] then results else scoreChunk benchmark_results results
    runChunks cfg probe rand network common_start common_end rest (ctr + 2) results'
      (qs ++ [benchmark_query])

/-- The `for label, group_info in main_group.items()` loop. -/
def runCohorts (cfg : ValidatorConfig) (probe : Probe) (rand : Nat → Nat)
    (network : String) :
    List (Nat × Cohort) → Nat → ResultsMap → Trace →
    Except Unit (Nat × ResultsMap × Trace)
  | [], ctr, results, tr => .ok (ctr, results, tr)
  | (label, c) :: rest, ctr, results, tr => do
    let (ctr', results', qs) ←
      runChunks cfg probe rand network c.common_start c.common_end c.responses ctr results []
    runCohorts cfg probe rand network rest ctr' results' (tr ++ [(network, label, c, qs)])

/-- The `for network, main_group in grouped_responses.items()` loop. -/
def runNetworks (cfg : ValidatorConfig) (probe : Probe) (rand : Nat → Nat) :
    List (String × List (Nat × Cohort)) → Nat → ResultsMap → Trace →
    Except Unit (Nat × ResultsMap × Trace)
  | [], ctr, results, tr => .ok (ctr, results, tr)
  | (network, cohorts) :: rest, ctr, results, tr => do
    let (ctr', results', tr') ← runCohorts cfg probe rand network cohorts ctr results tr
    runNetworks cfg probe rand rest ctr' results' tr'

/-- One full benchmarking pass (`BenchmarkValidator.run_benchmarks`),
returning the verdict map together with the per-cohort query trace. -/
def runPass (cfg : ValidatorConfig) (probe : Probe) (rand : Nat → Nat)
    (shuffleFn : List Resp → List Resp)
    (kmeansFn : Nat → List (Int × Int) → Except Unit (List Nat))
    (filtered_responses : List Resp) : Except Unit (ResultsMap × Trace) := do
  let grouped := group_responses shuffleFn kmeansFn cfg.benchmark_cluster_size
    cfg.benchmark_query_chunk_size filtered_responses
  let (_, results, tr) ← runNetworks cfg probe rand grouped 0 [] []
  pure (results, tr)

/-- `run_benchmarks` proper: the verdict map of a pass. -/
def run_benchmarks (cfg : ValidatorConfig) (probe : Probe) (rand : Nat → Nat)
    (shuffleFn : List Resp → List Resp)
    (kmeansFn : Nat → List (Int × Int) → Except Unit (List Nat))
    (filtered_responses : List Resp) : Except Unit ResultsMap :=
  (runPass cfg probe rand shuffleFn kmeansFn filtered_responses).map (fun p => p.1)

/-- The queries a pass issues, grouped per (network, label) cohort. -/
def issued_queries (cfg : ValidatorConfig) (probe : Probe) (rand : Nat → Nat)
    (shuffleFn : List Resp → List Resp)
    (kmeansFn : Nat → List (Int × Int) → Except Unit (List Nat))
    (filtered_responses : List Resp) : Except Unit Trace :=
  (runPass cfg probe rand shuffleFn kmeansFn filtered_responses).map (fun p => p.2)

/-! ### Helper lemmas: ordered dictionaries -/

theorem lookupKey_mem {α β : Type} [DecidableEq α] {k : α} {v : β} :
    ∀ {l : List (α × β)}, lookupKey k l = some v → (k, v) ∈ l := by
  intro l
  induction l with
  | nil => intro h; simp [lookupKey] at h
  | cons p rest ih =>
    intro h
    obtain ⟨k', v'⟩ := p
    by_cases hk : k' = k
    · subst hk
      simp [lookupKey] at h
      subst h; exact List.mem_cons_self _ _
    · simp only [lookupKey, if_neg hk] at h
      exact List.mem_cons_of_mem _ (ih h)

theorem lookupKey_eq_none {α β : Type} [DecidableEq α] {k : α} {l : List (α × β)}
    (h : ∀ v, (k, v) ∉ l) : lookupKey k l = none := by
  cases hl : lookupKey k l with
  | none => rfl
  | some v => exact absurd (lookupKey_mem hl) (h v)

theorem lookupKey_of_mem_nodup {α β : Type} [DecidableEq α] :
    ∀ {l : List (α × β)} {k : α} {v : β},
      (l.map Prod.fst).Nodup → (k, v) ∈ l → lookupKey k l = some v := by
  intro l
  induction l with
  | nil => intro k v _ h; simp at h
  | cons p rest ih =>
    intro k v hnd hm
    obtain ⟨k', v'⟩ := p
    simp only [List.map_cons, List.nodup_cons] at hnd
    rcases List.mem_cons.mp hm with heq | hm'
    · injection heq with h1 h2
      subst h1; subst h2
      simp [lookupKey]
    · have hk : k' ≠ k := by
        rintro rfl
        exact hnd.1 (List.mem_map.mpr ⟨(k', v), hm', rfl⟩)
      simp only [lookupKey, if_neg hk]
      exact ih hnd.2 hm'

theorem dictInsert_mem {α β : Type} [DecidableEq α] {k : α} {v : β} :
    ∀ {l : List (α × β)} {p : α × β}, p ∈ dictInsert k v l → p = (k, v) ∨ p ∈ l := by
  intro l
  induction l with
  | nil => intro p h; simpa [dictInsert] using h
  | cons q rest ih =>
    intro p h
    obtain ⟨k', v'⟩ := q
    by_cases hk : k' = k
    · simp only [dictInsert, if_pos hk] at h
      rcases List.mem_cons.mp h with rfl | h'
      · exact Or.inl rfl
      · exact Or.inr (List.mem_cons_of_mem _ h')
    · simp only [dictInsert, if_neg hk] at h
      rcases List.mem_cons.mp h with rfl | h'
      · exact Or.inr (List.mem_cons_self _ _)
      · rcases ih h' with h'' | h''
        · exact Or.inl h''
        · exact Or.inr (List.mem_cons_of_mem _ h'')

theorem lookupKey_dictInsert_self {α β : Type} [DecidableEq α] (k : α) (v : β) :
    ∀ l : List (α × β), lookupKey k (dictInsert k v l) = some v := by
  intro l
  induction l with
  | nil => simp [dictInsert, lookupKey]
  | cons q rest ih =>
    obtain ⟨k', v'⟩ := q
    by_cases hk : k' = k
    · simp [dictInsert, if_pos hk, lookupKey]
    · simp [dictInsert, if_neg hk, lookupKey, hk, ih]

theorem lookupKey_dictInsert_ne {α β : Type} [DecidableEq α] {k k' : α} (v : β)
    (h : k' ≠ k) : ∀ l : List (α × β), lookupKey k' (dictInsert k v l) = lookupKey k' l := by
  intro l
  induction l with
  | nil => simp [dictInsert, lookupKey, Ne.symm h]
  | cons q rest ih =>
    obtain ⟨k0, v0⟩ := q
    by_cases hk : k0 = k
    · subst hk
      simp [dictInsert, lookupKey, Ne.symm h]
    · simp [dictInsert, if_neg hk, lookupKey, ih]

theorem upsertAppend_sound {α β : Type} [DecidableEq α] (k0 : α) (v0 : β) :
    ∀ (acc : List (α × List β)) (k : α) (vs : List β) (x : β),
      (k, vs) ∈ upsertAppend k0 v0 acc → x ∈ vs →
      (∃ vs', (k, vs') ∈ acc ∧ x ∈ vs') ∨ (k = k0 ∧ x = v0) := by
  intro acc
  induction acc with
  | nil =>
    intro k vs x hm hx
    simp only [upsertAppend, List.mem_singleton, Prod.mk.injEq] at hm
    obtain ⟨rfl, rfl⟩ := hm
    simp only [List.mem_singleton] at hx
    exact Or.inr ⟨rfl, hx⟩
  | cons q rest ih =>
    intro k vs x hm hx
    obtain ⟨k', vs'⟩ := q
    by_cases hk : k' = k0
    · simp only [upsertAppend, if_pos hk, List.mem_cons] at hm
      rcases hm with heq | hmem
      · have h1 : k = k' := congrArg Prod.fst heq
        have h2 : vs = vs' ++ [v0] := congrArg Prod.snd heq
        subst h1
        rw [h2] at hx
        rcases List.mem_append.mp hx with hx' | hx'
        · exact Or.inl ⟨vs', List.mem_cons_self _ _, hx'⟩
        · exact Or.inr ⟨hk, by simpa using hx'⟩
      · exact Or.inl ⟨vs, List.mem_cons_of_mem _ hmem, hx⟩
    · simp only [upsertAppend, if_neg hk, List.mem_cons] at hm
      rcases hm with heq | hmem
      · have h1 : k = k' := congrArg Prod.fst heq
        have h2 : vs = vs' := congrArg Prod.snd heq
        subst h1
        rw [h2] at hx
        exact Or.inl ⟨vs', List.mem_cons_self _ _, hx⟩
      · rcases ih k vs x hmem hx with ⟨vs'', hvs'', hx''⟩ | h''
        · exact Or.inl ⟨vs'', List.mem_cons_of_mem _ hvs'', hx''⟩
        · exact Or.inr h''

theorem upsertAppend_fst {α β : Type} [DecidableEq α] (k : α) (v : β) :
    ∀ l : List (α × List β),
      (upsertAppend k v l).map Prod.fst =
        if k ∈ l.map Prod.fst then l.map Prod.fst else l.map Prod.fst ++ [k] := by
  intro l
  induction l with
  | nil => simp [upsertAppend]
  | cons q rest ih =>
    obtain ⟨k', vs⟩ := q
    by_cases hk : k' = k
    · subst hk
      simp [upsertAppend]
    · have hk' : k = k' ↔ False := ⟨fun e => hk e.symm, False.elim⟩
      simp only [upsertAppend, if_neg hk, List.map_cons, List.mem_cons, hk', false_or, ih]
      by_cases hmem : k ∈ rest.map Prod.fst <;> simp [hmem]

theorem nodup_append_singleton {α : Type} {l : List α} {k : α}
    (hl : l.Nodup) (hk : k ∉ l) : (l ++ [k]).Nodup := by
  induction l with
  | nil => simp
  | cons x xs ih =>
    simp only [List.nodup_cons] at hl
    simp only [List.mem_cons, not_or] at hk
    simp only [List.cons_append, List.nodup_cons, List.mem_append, List.mem_singleton]
    exact ⟨by rintro (h | rfl); exacts [hl.1 h, hk.1 rfl], ih hl.2 hk.2⟩

theorem upsertAppend_fst_nodup {α β : Type} [DecidableEq α] (k : α) (v : β)
    {l : List (α × List β)} (h : (l.map Prod.fst).Nodup) :
    ((upsertAppend k v l).map Prod.fst).Nodup := by
  rw [upsertAppend_fst]
  by_cases hmem : k ∈ l.map Prod.fst
  · simpa [hmem] using h
  · simpa [hmem] using nodup_append_singleton h hmem

theorem mem_foldl_append {α β : Type} (g : α → List β) :
    ∀ (l : List α) (init : List β) (b : β),
      b ∈ l.foldl (fun acc x => acc ++ g x) init ↔ b ∈ init ∨ ∃ x ∈ l, b ∈ g x := by
  intro l
  induction l with
  | nil => simp
  | cons x xs ih =>
    intro init b
    simp only [List.foldl_cons, ih, List.mem_append, List.mem_cons]
    constructor
    · rintro ((h | h) | ⟨y, hy, hb⟩)
      · exact Or.inl h
      · exact Or.inr ⟨x, Or.inl rfl, h⟩
      · exact Or.inr ⟨y, Or.inr hy, hb⟩
    · rintro (h | ⟨y, (rfl | hy), hb⟩)
      · exact Or.inl (Or.inl h)
      · exact Or.inl (Or.inr hb)
      · exact Or.inr ⟨y, hy, hb⟩

/-! ### Helper lemmas: chunking and minima -/

theorem chunkGo_subset {α : Type} (n : Nat) :
    ∀ (fuel : Nat) (l c : List α), c ∈ chunkGo n fuel l → ∀ x ∈ c, x ∈ l := by
  intro fuel
  induction fuel with
  | zero =>
    intro l c hc
    cases l <;> simp [chunkGo] at hc
  | succ fuel ih =>
    intro l c hc x hx
    cases l with
    | nil => simp [chunkGo] at hc
    | cons y ys =>
      simp only [chunkGo, List.mem_cons] at hc
      rcases hc with rfl | hc
      · exact List.take_subset _ _ hx
      · exact List.drop_subset _ _ (ih _ _ hc x hx)

theorem chunkEvery_subset {α : Type} {n : Nat} {l c : List α}
    (hc : c ∈ chunkEvery n l) {x : α} (hx : x ∈ c) : x ∈ l :=
  chunkGo_subset n l.length l c hc x hx

theorem chunkGo_flatten {α : Type} {n : Nat} (hn : 0 < n) :
    ∀ (fuel : Nat) (l : List α), l.length ≤ fuel → (chunkGo n fuel l).flatten = l := by
  intro fuel
  induction fuel with
  | zero =>
    intro l hl
    cases l with
    | nil => simp [chunkGo]
    | cons x xs => simp at hl
  | succ fuel ih =>
    intro l hl
    cases l with
    | nil => simp [chunkGo]
    | cons x xs =>
      simp only [chunkGo, List.flatten_cons]
      rw [ih _ (by simp only [List.length_drop]; simp only [List.length_cons] at hl ⊢; omega)]
      exact List.take_append_drop n (x :: xs)

theorem chunkEvery_flatten {α : Type} {n : Nat} (hn : 0 < n) (l : List α) :
    (chunkEvery n l).flatten = l :=
  chunkGo_flatten hn l.length l le_rfl

theorem foldl_min_le_init : ∀ (l : List Int) (a : Int), l.foldl min a ≤ a := by
  intro l
  induction l with
  | nil => intro a; simp
  | cons x xs ih =>
    intro a
    calc (x :: xs).foldl min a = xs.foldl min (min a x) := rfl
    _ ≤ min a x := ih _
    _ ≤ a := min_le_left _ _

theorem foldl_min_le_mem : ∀ (l : List Int) (a x : Int), x ∈ l → l.foldl min a ≤ x := by
  intro l
  induction l with
  | nil => intro a x h; simp at h
  | cons y ys ih =>
    intro a x h
    rcases List.mem_cons.mp h with rfl | h'
    · calc (x :: ys).foldl min a = ys.foldl min (min a x) := rfl
      _ ≤ min a x := foldl_min_le_init _ _
      _ ≤ x := min_le_right _ _
    · exact ih _ x h'

theorem intMin_le {l : List Int} {x : Int} (h : x ∈ l) : intMin l ≤ x := by
  cases l with
  | nil => simp at h
  | cons y ys =>
    rcases List.mem_cons.mp h with rfl | h'
    · exact foldl_min_le_init _ _
    · exact foldl_min_le_mem _ _ _ h'

/-! ### Helper lemmas: the majority vote (`Counter.most_common(1)`) -/

theorem removeVal_length_le (v : String) : ∀ l, (removeVal v l).length ≤ l.length := by
  intro l
  induction l with
  | nil => simp [removeVal]
  | cons x rest ih =>
    by_cases hx : x = v
    · simp only [removeVal, if_pos hx, List.length_cons]
      omega
    · simp only [removeVal, if_neg hx, List.length_cons]
      omega

theorem idxOfv_cons_self (x : String) (l : List String) : idxOfv (x :: l) x = 0 := by
  simp [idxOfv]

theorem idxOfv_cons_ne {x y : String} (h : ¬(x = y)) (l : List String) :
    idxOfv (x :: l) y = idxOfv l y + 1 := by
  simp [idxOfv, h]

theorem removeVal_cons_pos {x v : String} (h : x = v) (l : List String) :
    removeVal v (x :: l) = removeVal v l := by
  simp [removeVal, h]

theorem removeVal_cons_neg {x v : String} (h : ¬(x = v)) (l : List String) :
    removeVal v (x :: l) = x :: removeVal v l := by
  simp [removeVal, h]

theorem removeVal_mem (v : String) :
    ∀ (l : List String) (y : String), y ∈ removeVal v l ↔ y ∈ l ∧ y ≠ v := by
  intro l
  induction l with
  | nil => simp [removeVal]
  | cons x rest ih =>
    intro y
    by_cases hx : x = v
    · rw [removeVal_cons_pos hx, ih]
      subst hx
      simp only [List.mem_cons]
      constructor
      · rintro ⟨hy, hne⟩; exact ⟨Or.inr hy, hne⟩
      · rintro ⟨(rfl | hy), hne⟩
        · exact absurd rfl hne
        · exact ⟨hy, hne⟩
    · rw [removeVal_cons_neg hx]
      simp only [List.mem_cons, ih]
      constructor
      · rintro (rfl | ⟨hy, hne⟩)
        · exact ⟨Or.inl rfl, hx⟩
        · exact ⟨Or.inr hy, hne⟩
      · rintro ⟨(rfl | hy), hne⟩
        · exact Or.inl rfl
        · exact Or.inr ⟨hy, hne⟩

theorem removeVal_idx_lt (v : String) :
    ∀ (l : List String) (a b : String), a ∈ removeVal v l → b ∈ removeVal v l →
      idxOfv (removeVal v l) a < idxOfv (removeVal v l) b → idxOfv l a < idxOfv l b := by
  intro l
  induction l with
  | nil => intro a b ha; simp [removeVal] at ha
  | cons y ys ih =>
    intro a b ha hb hlt
    by_cases hyv : y = v
    · rw [removeVal_cons_pos hyv] at ha hb hlt
      have hav := (removeVal_mem v ys a).mp ha
      have hbv := (removeVal_mem v ys b).mp hb
      have hya : ¬(y = a) := fun e => hav.2 (by rw [← e, hyv])
      have hyb : ¬(y = b) := fun e => hbv.2 (by rw [← e, hyv])
      rw [idxOfv_cons_ne hya, idxOfv_cons_ne hyb]
      have := ih a b ha hb hlt
      omega
    · rw [removeVal_cons_neg hyv] at ha hb hlt
      by_cases hya : y = a
      · subst hya
        have hyb : ¬(y = b) := by
          intro e
          subst e
          rw [idxOfv_cons_self] at hlt
          exact absurd hlt (by omega)
        rw [idxOfv_cons_self, idxOfv_cons_ne hyb]
        omega
      · have ha' : a ∈ removeVal v ys := by
          rcases List.mem_cons.mp ha with rfl | h'
          · exact absurd rfl hya
          · exact h'
        have hyb : ¬(y = b) := by
          intro e
          subst e
          rw [idxOfv_cons_ne hya, idxOfv_cons_self] at hlt
          omega
        have hb' : b ∈ removeVal v ys := by
          rcases List.mem_cons.mp hb with rfl | h'
          · exact absurd rfl hyb
          · exact h'
        rw [idxOfv_cons_ne hya, idxOfv_cons_ne hyb] at hlt
        rw [idxOfv_cons_ne hya, idxOfv_cons_ne hyb]
        have := ih a b ha' hb' (by omega)
        omega

theorem firstUniqGo_mem :
    ∀ (fuel : Nat) (l : List String), l.length ≤ fuel →
      ∀ y, y ∈ firstUniqGo fuel l ↔ y ∈ l := by
  intro fuel
  induction fuel with
  | zero =>
    intro l hl y
    cases l with
    | nil => simp [firstUniqGo]
    | cons x rest => simp at hl
  | succ fuel ih =>
    intro l hl y
    cases l with
    | nil => simp [firstUniqGo]
    | cons x rest =>
      have hlen : (removeVal x rest).length ≤ fuel := by
        have := removeVal_length_le x rest
        simp only [List.length_cons] at hl
        omega
      simp only [firstUniqGo, List.mem_cons, ih _ hlen, removeVal_mem]
      by_cases hy : y = x
      · subst hy; simp
      · simp [hy]

theorem firstUniqGo_pairwise :
    ∀ (fuel : Nat) (l : List String), l.length ≤ fuel →
      (firstUniqGo fuel l).Pairwise (fun a b => idxOfv l a < idxOfv l b) := by
  intro fuel
  induction fuel with
  | zero =>
    intro l hl
    cases l with
    | nil => simp [firstUniqGo]
    | cons x rest => simp at hl
  | succ fuel ih =>
    intro l hl
    cases l with
    | nil => simp [firstUniqGo]
    | cons x rest =>
      have hlen : (removeVal x rest).length ≤ fuel := by
        have := removeVal_length_le x rest
        simp only [List.length_cons] at hl
        omega
      simp only [firstUniqGo]
      refine List.Pairwise.cons ?_ ?_
      · intro c hc
        have hc' := (firstUniqGo_mem fuel _ hlen c).mp hc
        have hc'' := (removeVal_mem x rest c).mp hc'
        have hxc : ¬(x = c) := fun e => hc''.2 e.symm
        rw [idxOfv_cons_self, idxOfv_cons_ne hxc]
        omega
      · have hpw := ih (removeVal x rest) hlen
        refine hpw.imp_of_mem ?_
        intro a b hma hmb hab
        have ha' := (firstUniqGo_mem fuel _ hlen a).mp hma
        have hb' := (firstUniqGo_mem fuel _ hlen b).mp hmb
        have ha'' := (removeVal_mem x rest a).mp ha'
        have hb'' := (removeVal_mem x rest b).mp hb'
        have hxa : ¬(x = a) := fun e => ha''.2 e.symm
        have hxb : ¬(x = b) := fun e => hb''.2 e.symm
        have := removeVal_idx_lt x rest a b ha' hb' hab
        rw [idxOfv_cons_ne hxa, idxOfv_cons_ne hxb]
        omega

theorem firstUniq_mem (l : List String) (y : String) : y ∈ firstUniq l ↔ y ∈ l :=
  firstUniqGo_mem l.length l le_rfl y

theorem firstUniq_pairwise (l : List String) :
    (firstUniq l).Pairwise (fun a b => idxOfv l a < idxOfv l b) :=
  firstUniqGo_pairwise l.length l le_rfl

theorem pickBest_sound (xs : List String) :
    ∀ (K : List String) (b : String),
      (b :: K).Pairwise (fun a c => idxOfv xs a < idxOfv xs c) →
      ∃ v, pickBest xs K (some b) = some v ∧ v ∈ b :: K ∧
        (∀ w ∈ b :: K, countv xs w ≤ countv xs v) ∧
        (∀ w ∈ b :: K, countv xs w = countv xs v → idxOfv xs v ≤ idxOfv xs w) := by
  intro K
  induction K with
  | nil =>
    intro b _
    refine ⟨b, rfl, List.mem_cons_self _ _, ?_, ?_⟩
    · intro w hw
      rcases List.mem_cons.mp hw with rfl | h
      · exact le_rfl
      · simp at h
    · intro w hw _
      rcases List.mem_cons.mp hw with rfl | h
      · exact le_rfl
      · simp at h
  | cons c K' ih =>
    intro b hpw
    rw [List.pairwise_cons] at hpw
    obtain ⟨hb, hpw'⟩ := hpw
    have hpwc := hpw'
    rw [List.pairwise_cons] at hpwc
    obtain ⟨hc, hK'⟩ := hpwc
    by_cases hcount : countv xs b < countv xs c
    · obtain ⟨v, hpick, hvmem, hmax, htie⟩ := ih c hpw'
      refine ⟨v, ?_, List.mem_cons_of_mem _ hvmem, ?_, ?_⟩
      · show pickBest xs K' (if countv xs b < countv xs c then some c else some b) = some v
        rw [if_pos hcount]; exact hpick
      · intro w hw
        rcases List.mem_cons.mp hw with rfl | hw'
        · have := hmax c (List.mem_cons_self _ _)
          omega
        · exact hmax w hw'
      · intro w hw heq
        rcases List.mem_cons.mp hw with rfl | hw'
        · have := hmax c (List.mem_cons_self _ _)
          omega
        · exact htie w hw' heq
    · have hpw2 : (b :: K').Pairwise (fun a d => idxOfv xs a < idxOfv xs d) :=
        List.pairwise_cons.mpr ⟨fun w hw => hb w (List.mem_cons_of_mem _ hw), hK'⟩
      obtain ⟨v, hpick, hvmem, hmax, htie⟩ := ih b hpw2
      have hvmem' : v ∈ b :: c :: K' := by
        rcases List.mem_cons.mp hvmem with rfl | hv'
        · exact List.mem_cons_self _ _
        · exact List.mem_cons_of_mem _ (List.mem_cons_of_mem _ hv')
      refine ⟨v, ?_, hvmem', ?_, ?_⟩
      · show pickBest xs K' (if countv xs b < countv xs c then some c else some b) = some v
        rw [if_neg hcount]; exact hpick
      · intro w hw
        rcases List.mem_cons.mp hw with rfl | hw'
        · exact hmax w (List.mem_cons_self _ _)
        rcases List.mem_cons.mp hw' with rfl | hw''
        · have := hmax b (List.mem_cons_self _ _)
          omega
        · exact hmax w (List.mem_cons_of_mem _ hw'')
      · intro w hw heq
        rcases List.mem_cons.mp hw with rfl | hw'
        · exact htie w (List.mem_cons_self _ _) heq
        rcases List.mem_cons.mp hw' with rfl | hw''
        · have h1 := hmax b (List.mem_cons_self _ _)
          have h2 : countv xs b = countv xs v := by omega
          have h3 := htie b (List.mem_cons_self _ _) h2
          have h4 := hb w (List.mem_cons_self _ _)
          omega
        · exact htie w (List.mem_cons_of_mem _ hw'') heq

theorem most_common_sound (xs : List String) (hne : xs ≠ []) :
    ∃ v, most_common xs = some v ∧ v ∈ xs ∧
      (∀ w ∈ xs, countv xs w ≤ countv xs v) ∧
      (∀ w ∈ xs, countv xs w = countv xs v → idxOfv xs v ≤ idxOfv xs w) := by
  cases hxs : xs with
  | nil => exact absurd hxs hne
  | cons x rest =>
    subst hxs
    have hpw := firstUniq_pairwise (x :: rest)
    have hfu : firstUniq (x :: rest) = x :: firstUniqGo rest.length (removeVal x rest) := rfl
    rw [hfu] at hpw
    obtain ⟨v, hpick, hvmem, hmax, htie⟩ := pickBest_sound (x :: rest) _ x hpw
    have hmem_iff : ∀ y, y ∈ x :: firstUniqGo rest.length (removeVal x rest) ↔ y ∈ x :: rest := by
      intro y
      have := firstUniq_mem (x :: rest) y
      rw [hfu] at this
      exact this
    refine ⟨v, ?_, (hmem_iff v).mp hvmem, ?_, ?_⟩
    · show pickBest (x :: rest) (firstUniq (x :: rest)) none = some v
      rw [hfu]
      exact hpick
    · intro w hw
      exact hmax w ((hmem_iff w).mpr hw)
    · intro w hw
      exact htie w ((hmem_iff w).mpr hw)

/-! ### Helper lemmas: probing and scoring -/

theorem run_benchmark_cases (probe : Probe) (uid : Nat) (q : String) :
    run_benchmark probe uid q = (none, none, none) ∨
    ∃ t o, probe uid q = some (t, o) ∧ run_benchmark probe uid q = (some uid, some t, some o) := by
  cases h : probe uid q with
  | none => exact Or.inl (by simp [run_benchmark, h])
  | some p =>
    obtain ⟨t, o⟩ := p
    exact Or.inr ⟨t, o, rfl, by simp [run_benchmark, h]⟩

theorem execute_benchmarks_mem {probe : Probe} {chunk : List Resp} {q : String} {r : Outcome}
    (h : r ∈ execute_benchmarks probe chunk q) :
    ∃ m ∈ chunk, ∃ t o, probe m.2 q = some (t, o) ∧ r = (some m.2, some t, some o) := by
  unfold execute_benchmarks at h
  rw [List.mem_filter] at h
  obtain ⟨hmem, hsome⟩ := h
  rw [List.mem_map] at hmem
  obtain ⟨m, hm, heq⟩ := hmem
  cases hp : probe m.2 q with
  | none =>
    rw [← heq] at hsome
    simp [run_benchmark, hp] at hsome
  | some p =>
    obtain ⟨t, o⟩ := p
    exact ⟨m, hm, t, o, hp, by rw [← heq]; simp [run_benchmark, hp]⟩

theorem execute_benchmarks_all_fail {probe : Probe} {chunk : List Resp} {q : String}
    (h : ∀ m ∈ chunk, probe m.2 q = none) : execute_benchmarks probe chunk q = [] := by
  unfold execute_benchmarks
  rw [List.filter_eq_nil_iff]
  intro r hr
  rw [List.mem_map] at hr
  obtain ⟨m, hm, heq⟩ := hr
  rw [← heq]
  simp [run_benchmark, h m hm]

theorem foldl_insStep_mem (mcv : String) :
    ∀ (br : List Outcome) (res : ResultsMap) (p : Option Nat × (Option Nat × Bool)),
      p ∈ br.foldl (insStep mcv) res → (∃ r ∈ br, p.1 = r.1) ∨ p ∈ res := by
  intro br
  induction br with
  | nil => intro res p h; exact Or.inr h
  | cons r0 rest ih =>
    intro res p h
    rw [List.foldl_cons] at h
    rcases ih _ p h with ⟨r, hr, hp⟩ | hmem
    · exact Or.inl ⟨r, List.mem_cons_of_mem _ hr, hp⟩
    · rcases dictInsert_mem hmem with heq | hmem'
      · exact Or.inl ⟨r0, List.mem_cons_self _ _, by rw [heq]⟩
      · exact Or.inr hmem'

theorem foldl_insStep_lookup_of_ne (mcv : String) :
    ∀ (br : List Outcome) (res : ResultsMap) (k : Option Nat),
      (∀ r ∈ br, r.1 ≠ k) →
      lookupKey k (br.foldl (insStep mcv) res) = lookupKey k res := by
  intro br
  induction br with
  | nil => intro res k _; rfl
  | cons r0 rest ih =>
    intro res k hk
    rw [List.foldl_cons, ih _ k (fun r hr => hk r (List.mem_cons_of_mem _ hr))]
    exact lookupKey_dictInsert_ne _ (Ne.symm (hk r0 (List.mem_cons_self _ _))) res

theorem foldl_insStep_lookup (mcv : String) :
    ∀ (br : List Outcome) (res : ResultsMap),
      (br.map (fun r => r.1)).Nodup →
      ∀ r ∈ br, lookupKey r.1 (br.foldl (insStep mcv) res) =
        some (r.2.1, decide (r.2.2 = some mcv)) := by
  intro br
  induction br with
  | nil => intro res _ r hr; simp at hr
  | cons r0 rest ih =>
    intro res hnd r hr
    simp only [List.map_cons, List.nodup_cons] at hnd
    rcases List.mem_cons.mp hr with rfl | hr'
    · rw [List.foldl_cons]
      have hne : ∀ r' ∈ rest, r'.1 ≠ r.1 := by
        intro r' hr' he
        exact hnd.1 (List.mem_map.mpr ⟨r', hr', he⟩)
      rw [foldl_insStep_lookup_of_ne mcv rest _ r.1 hne]
      exact lookupKey_dictInsert_self _ _ _
    · rw [List.foldl_cons]
      exact ih _ hnd.2 r hr'

theorem scoreChunk_mem {br : List Outcome} {res : ResultsMap}
    {p : Option Nat × (Option Nat × Bool)}
    (h : p ∈ scoreChunk br res) : (∃ r ∈ br, p.1 = r.1) ∨ p ∈ res := by
  unfold scoreChunk at h
  cases hm : most_common (br.filterMap (fun r => r.2.2)) with
  | none => rw [hm] at h; exact Or.inr h
  | some mcv => rw [hm] at h; exact foldl_insStep_mem mcv br res p h

theorem scoreChunk_lookup {br : List Outcome} (res : ResultsMap) {v : String}
    (hm : most_common (br.filterMap (fun r => r.2.2)) = some v)
    (hnd : (br.map (fun r => r.1)).Nodup) :
    ∀ r ∈ br, lookupKey r.1 (scoreChunk br res) = some (r.2.1, decide (r.2.2 = some v)) := by
  intro r hr
  unfold scoreChunk
  rw [hm]
  exact foldl_insStep_lookup v br res hnd r hr

theorem outputs_ne_nil {br : List Outcome}
    (hshape : ∀ r ∈ br, ∃ u t o, r = (some u, some t, some o)) (hne : br ≠ []) :
    br.filterMap (fun r => r.2.2) ≠ [] := by
  cases br with
  | nil => exact absurd rfl hne
  | cons r rest =>
    obtain ⟨u, t, o, heq⟩ := hshape r (List.mem_cons_self _ _)
    subst heq
    simp [List.filterMap_cons]

/-! ### Helper lemmas: the pass loops -/

theorem bind_ok_eq {ε α β : Type} (a : α) (f : α → Except ε β) :
    (bind (Except.ok a) f : Except ε β) = f a := rfl

theorem bind_error_eq {ε α β : Type} (e : ε) (f : α → Except ε β) :
    (bind (Except.error e) f : Except ε β) = Except.error e := rfl

theorem randint_ok {a b : Int} (h : a ≤ b) (choice : Nat) :
    randint choice a b = .ok (a + (choice : Int) % (b - a + 1)) := by
  unfold randint
  rw [if_neg (not_lt.mpr h)]

theorem randint_mem {a b : Int} (h : a ≤ b) (choice : Nat) :
    a ≤ a + (choice : Int) % (b - a + 1) ∧ a + (choice : Int) % (b - a + 1) ≤ b := by
  have hpos : (0 : Int) < b - a + 1 := by omega
  have h1 : 0 ≤ (choice : Int) % (b - a + 1) := Int.emod_nonneg _ (by omega)
  have h2 : (choice : Int) % (b - a + 1) < b - a + 1 := Int.emod_lt_of_pos _ hpos
  omega

theorem runChunks_mem (cfg : ValidatorConfig) (probe : Probe) (rand : Nat → Nat)
    (network : String) (cs ce : Int) :
    ∀ (chunks : List (List Resp)) (ctr : Nat) (results : ResultsMap) (qs : List String)
      (out : Nat × ResultsMap × List String),
      runChunks cfg probe rand network cs ce chunks ctr results qs = .ok out →
      ∀ p ∈ out.2.1, p ∈ results ∨
        ∃ chunk ∈ chunks, ∃ m ∈ chunk, ∃ q t o,
          p.1 = some m.2 ∧ probe m.2 q = some (t, o) := by
  intro chunks
  induction chunks with
  | nil =>
    intro ctr results qs out h p hp
    simp only [runChunks] at h
    cases h
    exact Or.inl hp
  | cons chunk rest ih =>
    intro ctr results qs out h p hp
    simp only [runChunks, randint_ok (by omega : (0 : Int) ≤ 100), bind_ok_eq] at h
    cases hq : default_script (rand (ctr + 1)) network cs ce
        (cfg.benchmark_query_diff - (0 + (rand ctr : Int) % (100 - 0 + 1))) with
    | error e => rw [hq, bind_error_eq] at h; cases h
    | ok benchmark_query =>
      rw [hq, bind_ok_eq] at h
      rcases ih _ _ _ _ h p hp with hmem | ⟨c, hc, m, hm, q, t, o, hp1, hp2⟩
      · by_cases hbe : execute_benchmarks probe chunk benchmark_query = []
        · rw [if_pos hbe] at hmem
          exact Or.inl hmem
        · rw [if_neg hbe] at hmem
          rcases scoreChunk_mem hmem with ⟨r, hr, hpr⟩ | hmem'
          · obtain ⟨m, hm, t, o, hpo, hre⟩ := execute_benchmarks_mem hr
            refine Or.inr ⟨chunk, List.mem_cons_self _ _, m, hm, benchmark_query, t, o, ?_, hpo⟩
            rw [hpr, hre]
          · exact Or.inl hmem'
      · exact Or.inr ⟨c, List.mem_cons_of_mem _ hc, m, hm, q, t, o, hp1, hp2⟩

theorem runChunks_len (cfg : ValidatorConfig) (probe : Probe) (rand : Nat → Nat)
    (network : String) (cs ce : Int) :
    ∀ (chunks : List (List Resp)) (ctr : Nat) (results : ResultsMap) (qs : List String)
      (out : Nat × ResultsMap × List String),
      runChunks cfg probe rand network cs ce chunks ctr results qs = .ok out →
      out.2.2.length = qs.length + chunks.length := by
  intro chunks
  induction chunks with
  | nil =>
    intro ctr results qs out h
    simp only [runChunks] at h
    cases h
    simp
  | cons chunk rest ih =>
    intro ctr results qs out h
    simp only [runChunks, randint_ok (by omega : (0 : Int) ≤ 100), bind_ok_eq] at h
    cases hq : default_script (rand (ctr + 1)) network cs ce
        (cfg.benchmark_query_diff - (0 + (rand ctr : Int) % (100 - 0 + 1))) with
    | error e => rw [hq, bind_error_eq] at h; cases h
    | ok benchmark_query =>
      rw [hq, bind_ok_eq] at h
      have := ih _ _ _ _ h
      simp only [List.length_append, List.length_cons, List.length_nil] at this ⊢
      omega

theorem runCohorts_mem (cfg : ValidatorConfig) (probe : Probe) (rand : Nat → Nat)
    (network : String) :
    ∀ (cohorts : List (Nat × Cohort)) (ctr : Nat) (results : ResultsMap) (tr : Trace)
      (out : Nat × ResultsMap × Trace),
      runCohorts cfg probe rand network cohorts ctr results tr = .ok out →
      ∀ p ∈ out.2.1, p ∈ results ∨
        ∃ lc ∈ cohorts, ∃ chunk ∈ lc.2.responses, ∃ m ∈ chunk, ∃ q t o,
          p.1 = some m.2 ∧ probe m.2 q = some (t, o) := by
  intro cohorts
  induction cohorts with
  | nil =>
    intro ctr results tr out h p hp
    simp only [runCohorts] at h
    cases h
    exact Or.inl hp
  | cons lc0 rest ih =>
    intro ctr results tr out h p hp
    obtain ⟨label, c⟩ := lc0
    simp only [runCohorts] at h
    cases hrc : runChunks cfg probe rand network c.common_start c.common_end c.responses
        ctr results [] with
    | error e => rw [hrc, bind_error_eq] at h; cases h
    | ok st =>
      rw [hrc, bind_ok_eq] at h
      obtain ⟨ctr1, results1, qs1⟩ := st
      rcases ih _ _ _ _ h p hp with hmem | ⟨lc, hlc, rest'⟩
      · rcases runChunks_mem cfg probe rand network c.common_start c.common_end
            _ _ _ _ _ hrc p hmem with hmem' | ⟨chunk, hchunk, m, hm, q, t, o, hp1, hp2⟩
        · exact Or.inl hmem'
        · exact Or.inr ⟨(label, c), List.mem_cons_self _ _, chunk, hchunk, m, hm, q, t, o, hp1, hp2⟩
      · exact Or.inr ⟨lc, List.mem_cons_of_mem _ hlc, rest'⟩

theorem runCohorts_trace (cfg : ValidatorConfig) (probe : Probe) (rand : Nat → Nat)
    (network : String) :
    ∀ (cohorts : List (Nat × Cohort)) (ctr : Nat) (results : ResultsMap) (tr : Trace)
      (out : Nat × ResultsMap × Trace),
      runCohorts cfg probe rand network cohorts ctr results tr = .ok out →
      ∀ e ∈ out.2.2, e ∈ tr ∨
        ∃ lc ∈ cohorts, e.1 = network ∧ e.2.1 = lc.1 ∧ e.2.2.1 = lc.2 ∧
          e.2.2.2.length = lc.2.responses.length := by
  intro cohorts
  induction cohorts with
  | nil =>
    intro ctr results tr out h e he
    simp only [runCohorts] at h
    cases h
    exact Or.inl he
  | cons lc0 rest ih =>
    intro ctr results tr out h e he
    obtain ⟨label, c⟩ := lc0
    simp only [runCohorts] at h
    cases hrc : runChunks cfg probe rand network c.common_start c.common_end c.responses
        ctr results [] with
    | error er => rw [hrc, bind_error_eq] at h; cases h
    | ok st =>
      rw [hrc, bind_ok_eq] at h
      obtain ⟨ctr1, results1, qs1⟩ := st
      rcases ih _ _ _ _ h e he with hmem | ⟨lc, hlc, rest'⟩
      · rcases List.mem_append.mp hmem with hmem' | hmem'
        · exact Or.inl hmem'
        · simp only [List.mem_singleton] at hmem'
          subst hmem'
          refine Or.inr ⟨(label, c), List.mem_cons_self _ _, rfl, rfl, rfl, ?_⟩
          have := runChunks_len cfg probe rand network c.common_start c.common_end
            _ _ _ _ _ hrc
          simpa using this
      · exact Or.inr ⟨lc, List.mem_cons_of_mem _ hlc, rest'⟩

theorem runNetworks_mem (cfg : ValidatorConfig) (probe : Probe) (rand : Nat → Nat) :
    ∀ (groups : List (String × List (Nat × Cohort))) (ctr : Nat) (results : ResultsMap)
      (tr : Trace) (out : Nat × ResultsMap × Trace),
      runNetworks cfg probe rand groups ctr results tr = .ok out →
      ∀ p ∈ out.2.1, p ∈ results ∨
        ∃ ng ∈ groups, ∃ lc ∈ ng.2, ∃ chunk ∈ lc.2.responses, ∃ m ∈ chunk, ∃ q t o,
          p.1 = some m.2 ∧ probe m.2 q = some (t, o) := by
  intro groups
  induction groups with
  | nil =>
    intro ctr results tr out h p hp
    simp only [runNetworks] at h
    cases h
    exact Or.inl hp
  | cons ng0 rest ih =>
    intro ctr results tr out h p hp
    obtain ⟨network, cohorts⟩ := ng0
    simp only [runNetworks] at h
    cases hrc : runCohorts cfg probe rand network cohorts ctr results tr with
    | error e => rw [hrc, bind_error_eq] at h; cases h
    | ok st =>
      rw [hrc, bind_ok_eq] at h
      obtain ⟨ctr1, results1, tr1⟩ := st
      rcases ih _ _ _ _ h p hp with hmem | ⟨ng, hng, rest'⟩
      · rcases runCohorts_mem cfg probe rand network _ _ _ _ _ hrc p hmem with
          hmem' | ⟨lc, hlc, rest''⟩
        · exact Or.inl hmem'
        · exact Or.inr ⟨(network, cohorts), List.mem_cons_self _ _, lc, hlc, rest''⟩
      · exact Or.inr ⟨ng, List.mem_cons_of_mem _ hng, rest'⟩

theorem runNetworks_trace (cfg : ValidatorConfig) (probe : Probe) (rand : Nat → Nat) :
    ∀ (groups : List (String × List (Nat × Cohort))) (ctr : Nat) (results : ResultsMap)
      (tr : Trace) (out : Nat × ResultsMap × Trace),
      runNetworks cfg probe rand groups ctr results tr = .ok out →
      ∀ e ∈ out.2.2, e ∈ tr ∨
        ∃ ng ∈ groups, ∃ lc ∈ ng.2, e.1 = ng.1 ∧ e.2.1 = lc.1 ∧ e.2.2.1 = lc.2 ∧
          e.2.2.2.length = lc.2.responses.length := by
  intro groups
  induction groups with
  | nil =>
    intro ctr results tr out h e he
    simp only [runNetworks] at h
    cases h
    exact Or.inl he
  | cons ng0 rest ih =>
    intro ctr results tr out h e he
    obtain ⟨network, cohorts⟩ := ng0
    simp only [runNetworks] at h
    cases hrc : runCohorts cfg probe rand network cohorts ctr results tr with
    | error er => rw [hrc, bind_error_eq] at h; cases h
    | ok st =>
      rw [hrc, bind_ok_eq] at h
      obtain ⟨ctr1, results1, tr1⟩ := st
      rcases ih _ _ _ _ h e he with hmem | ⟨ng, hng, rest'⟩
      · rcases runCohorts_trace cfg probe rand network _ _ _ _ _ hrc e hmem with
          hmem' | ⟨lc, hlc, h1, h2, h3, h4⟩
        · exact Or.inl hmem'
        · exact Or.inr ⟨(network, cohorts), List.mem_cons_self _ _, lc, hlc, h1, h2, h3, h4⟩
      · exact Or.inr ⟨ng, List.mem_cons_of_mem _ hng, rest'⟩

/-- Master provenance lemma for the verdict map: every entry of a
successful pass's verdict map is keyed by the uid of some member of some
chunk of some cohort in the grouped output, whose probe succeeded. -/
theorem run_benchmarks_mem (cfg : ValidatorConfig) (probe : Probe) (rand : Nat → Nat)
    (shuffleFn : List Resp → List Resp)
    (kmeansFn : Nat → List (Int × Int) → Except Unit (List Nat))
    (responses : List Resp) (m : ResultsMap)
    (h : run_benchmarks cfg probe rand shuffleFn kmeansFn responses = .ok m) :
    ∀ p ∈ m,
      ∃ ng ∈ group_responses shuffleFn kmeansFn cfg.benchmark_cluster_size
          cfg.benchmark_query_chunk_size responses,
        ∃ lc ∈ ng.2, ∃ chunk ∈ lc.2.responses, ∃ mem ∈ chunk, ∃ q t o,
          p.1 = some mem.2 ∧ probe mem.2 q = some (t, o) := by
  intro p hp
  unfold run_benchmarks runPass at h
  cases hrn : runNetworks cfg probe rand
      (group_responses shuffleFn kmeansFn cfg.benchmark_cluster_size
        cfg.benchmark_query_chunk_size responses) 0 [] [] with
  | error e =>
    simp only [hrn, bind_error_eq, Except.map] at h
    cases h
  | ok st =>
    obtain ⟨ctr1, results1, tr1⟩ := st
    simp only [hrn, bind_ok_eq, Except.map, pure, Except.pure, Except.ok.injEq] at h
    rcases runNetworks_mem cfg probe rand _ _ _ _ _ hrn p (h ▸ hp) with hmem | hprov
    · simp at hmem
    · exact hprov

/-! ### Helper lemmas: the cohort builder -/

theorem networkGroups_sound :
    ∀ (l : List Resp) (acc : List (String × List Resp)) (k : String) (vs : List Resp) (x : Resp),
      (k, vs) ∈ l.foldl (fun a r => upsertAppend r.1.network r a) acc → x ∈ vs →
      (∃ vs', (k, vs') ∈ acc ∧ x ∈ vs') ∨ (x ∈ l ∧ x.1.network = k) := by
  intro l
  induction l with
  | nil => intro acc k vs x hm hx; exact Or.inl ⟨vs, hm, hx⟩
  | cons r rest ih =>
    intro acc k vs x hm hx
    rw [List.foldl_cons] at hm
    rcases ih _ k vs x hm hx with ⟨vs', hvs', hx'⟩ | ⟨hxl, hnet⟩
    · rcases upsertAppend_sound r.1.network r acc k vs' x hvs' hx' with
        ⟨vs'', h2, hx''⟩ | ⟨hk, hxr⟩
      · exact Or.inl ⟨vs'', h2, hx''⟩
      · subst hxr
        exact Or.inr ⟨List.mem_cons_self _ _, hk.symm⟩
    · exact Or.inr ⟨List.mem_cons_of_mem _ hxl, hnet⟩

theorem networkGroups_mem_sound {responses : List Resp} {k : String} {vs : List Resp} {x : Resp}
    (hm : (k, vs) ∈ networkGroups responses) (hx : x ∈ vs) :
    x ∈ responses ∧ x.1.network = k := by
  rcases networkGroups_sound responses [] k vs x hm hx with ⟨vs', h, _⟩ | h
  · simp at h
  · exact h

theorem networkGroups_fst_nodup_aux :
    ∀ (l : List Resp) (acc : List (String × List Resp)),
      (acc.map Prod.fst).Nodup →
      ((l.foldl (fun a r => upsertAppend r.1.network r a) acc).map Prod.fst).Nodup := by
  intro l
  induction l with
  | nil => intro acc h; exact h
  | cons r rest ih =>
    intro acc h
    rw [List.foldl_cons]
    exact ih _ (upsertAppend_fst_nodup _ _ h)

theorem networkGroups_fst_nodup (responses : List Resp) :
    ((networkGroups responses).map Prod.fst).Nodup :=
  networkGroups_fst_nodup_aux responses [] (by simp)

theorem networkGroups_lookup {responses : List Resp} {ng : String × List Resp}
    (h : ng ∈ networkGroups responses) :
    lookupKey ng.1 (networkGroups responses) = some ng.2 :=
  lookupKey_of_mem_nodup (networkGroups_fst_nodup responses) h

theorem labelGroups_sound_aux :
    ∀ (zl : List (Nat × Resp)) (acc : List (Nat × List Resp)) (lab : Nat) (vs : List Resp)
      (x : Resp),
      (lab, vs) ∈ zl.foldl (fun g li => upsertAppend li.1 li.2 g) acc → x ∈ vs →
      (∃ vs', (lab, vs') ∈ acc ∧ x ∈ vs') ∨ ∃ li ∈ zl, x = li.2 := by
  intro zl
  induction zl with
  | nil => intro acc lab vs x hm hx; exact Or.inl ⟨vs, hm, hx⟩
  | cons li rest ih =>
    intro acc lab vs x hm hx
    rw [List.foldl_cons] at hm
    rcases ih _ lab vs x hm hx with ⟨vs', hvs', hx'⟩ | ⟨li', hli', hxe⟩
    · rcases upsertAppend_sound li.1 li.2 acc lab vs' x hvs' hx' with
        ⟨vs'', h2, hx''⟩ | ⟨_, hxe⟩
      · exact Or.inl ⟨vs'', h2, hx''⟩
      · exact Or.inr ⟨li, List.mem_cons_self _ _, hxe⟩
    · exact Or.inr ⟨li', List.mem_cons_of_mem _ hli', hxe⟩

theorem labelGroups_sound (labels : List Nat) (items : List Resp) :
    ∀ lg ∈ labelGroups labels items, ∀ x ∈ lg.2, x ∈ items := by
  intro lg hlg x hx
  rcases labelGroups_sound_aux (labels.zip items) [] lg.1 lg.2 x hlg hx with
    ⟨vs', h, _⟩ | ⟨li, hli, hxe⟩
  · simp at h
  · subst hxe
    exact (List.of_mem_zip hli).2

theorem buildCohorts_mem {shuffleFn : List Resp → List Resp} {chunk_size : Nat}
    {grouped : List (Nat × List Resp)} {lc : Nat × Cohort}
    (h : lc ∈ buildCohorts shuffleFn chunk_size grouped) :
    ∃ lg ∈ grouped, lc.1 = lg.1 ∧
      lc.2 = { common_start := intMin ((shuffleFn lg.2).map (fun r => r.1.start_block_height))
               common_end := intMin ((shuffleFn lg.2).map (fun r => r.1.block_height))
               responses := chunkEvery chunk_size (shuffleFn lg.2) } := by
  unfold buildCohorts at h
  rw [List.mem_map] at h
  obtain ⟨lg, hlg, heq⟩ := h
  refine ⟨lg, hlg, ?_, ?_⟩
  · rw [← heq]
  · rw [← heq]

theorem processNetwork_mem {shuffleFn : List Resp → List Resp}
    {kmeansFn : Nat → List (Int × Int) → Except Unit (List Nat)}
    {cluster_size chunk_size : Nat} {ng : String × List Resp}
    {p : String × List (Nat × Cohort)}
    (h : p ∈ processNetwork shuffleFn kmeansFn cluster_size chunk_size ng) :
    ∃ labels, kmeansFn cluster_size (dataPoints ng.2) = .ok labels ∧
      p.1 = ng.1 ∧ p.2 = buildCohorts shuffleFn chunk_size (labelGroups labels ng.2) := by
  unfold processNetwork at h
  cases hk : kmeansFn cluster_size (dataPoints ng.2) with
  | error e => simp only [hk] at h; simp at h
  | ok labels =>
    simp only [hk] at h
    by_cases hc : buildCohorts shuffleFn chunk_size (labelGroups labels ng.2) = []
    · simp only [if_pos hc] at h; simp at h
    · simp only [if_neg hc, List.mem_singleton] at h
      subst h
      exact ⟨labels, rfl, rfl, rfl⟩

theorem group_responses_mem {shuffleFn : List Resp → List Resp}
    {kmeansFn : Nat → List (Int × Int) → Except Unit (List Nat)}
    {cluster_size chunk_size : Nat} {responses : List Resp}
    {p : String × List (Nat × Cohort)}
    (h : p ∈ group_responses shuffleFn kmeansFn cluster_size chunk_size responses) :
    ∃ ng ∈ networkGroups responses,
      p ∈ processNetwork shuffleFn kmeansFn cluster_size chunk_size ng := by
  unfold group_responses at h
  rw [mem_foldl_append] at h
  rcases h with h | h
  · simp at h
  · exact h

/-- Every member of every chunk of every cohort of a grouped network is
one of the original responses, declaring that network. -/
theorem cohort_member_sound {shuffleFn : List Resp → List Resp}
    {kmeansFn : Nat → List (Int × Int) → Except Unit (List Nat)}
    {cluster_size chunk_size : Nat} {responses : List Resp}
    (hs : ∀ l, (shuffleFn l).Perm l)
    {ng : String × List (Nat × Cohort)}
    (hng : ng ∈ group_responses shuffleFn kmeansFn cluster_size chunk_size responses)
    {lc : Nat × Cohort} (hlc : lc ∈ ng.2)
    {chunk : List Resp} (hchunk : chunk ∈ lc.2.responses)
    {m : Resp} (hm : m ∈ chunk) :
    m ∈ responses ∧ m.1.network = ng.1 := by
  obtain ⟨ng', hng', hp⟩ := group_responses_mem hng
  obtain ⟨labels, hk, h1, h2⟩ := processNetwork_mem hp
  rw [h2] at hlc
  obtain ⟨lg, hlg, hl1, hl2⟩ := buildCohorts_mem hlc
  rw [hl2] at hchunk
  have hmem' : m ∈ shuffleFn lg.2 := chunkEvery_subset hchunk hm
  have hmem'' : m ∈ lg.2 := (hs lg.2).mem_iff.mp hmem'
  have hitems : m ∈ ng'.2 := labelGroups_sound labels ng'.2 lg hlg m hmem''
  have hsound := networkGroups_mem_sound hng' hitems
  rw [h1]
  exact hsound

/-! ### Concrete fixtures used by witnesses and counterexamples -/

/-- A clustering oracle putting every point in cluster 0 (`KMeans` with
one cluster never raises). -/
def kmOne : Nat → List (Int × Int) → Except Unit (List Nat) :=
  fun _ pts => .ok (pts.map (fun _ => 0))

/-- A clustering oracle mirroring scikit-learn's `ValueError` when there
are fewer samples than requested clusters, otherwise one cluster. -/
def kmStrict : Nat → List (Int × Int) → Except Unit (List Nat) :=
  fun n pts => if pts.length < n then .error () else .ok (pts.map (fun _ => 0))

/-- A transport oracle that always succeeds with latency 3 and result `R`. -/
def probeR : Probe := fun _ _ => some (3, "R")

/-- A transport oracle for which responder 7 always fails. -/
def probeNo7 : Probe := fun u _ => if u = 7 then none else some (4, "R")

/-- Default-shaped validator configuration (diff 10000, chunk size 5,
one cluster). -/
def cfgDef : ValidatorConfig := ⟨10000, 5, 1⟩

/-- Configuration with chunk size 1 so that a 2-member cohort splits
into two chunks. -/
def cfgChunk1 : ValidatorConfig := ⟨10000, 1, 1⟩

/-- Configuration requesting 5 clusters. -/
def cfgClust5 : ValidatorConfig := ⟨10000, 5, 5⟩

/-- A responder claiming bitcoin coverage `[100, 500]`, uid 1. -/
def respA : Resp := (⟨"bitcoin", 100, 500⟩, 1)

/-- A responder claiming bitcoin coverage `[200, 600]`, uid 2. -/
def respB : Resp := (⟨"bitcoin", 200, 600⟩, 2)

/-- The Scenario-B chunk results: `["X","X","Y"]` at latencies
`[50, 60, 9999]` for uids 1, 2, 3. -/
def brB : List Outcome :=
  [(some 1, some 50, some "X"), (some 2, some 60, some "X"), (some 3, some 9999, some "Y")]

/-- Two bitcoin responders both claiming `[0, 30000]`. -/
def twoResp : List Resp := [(⟨"bitcoin", 0, 30000⟩, 1), (⟨"bitcoin", 0, 30000⟩, 2)]

/-- A bitcoin cohort whose safe interval `[1000, 1500]` is too narrow to
probe with diff 10000, next to a healthy doge responder. -/
def narrowInput : List Resp := [(⟨"bitcoin", 1000, 1500⟩, 1), (⟨"doge", 0, 30000⟩, 2)]

/-- The healthy doge responder alone. -/
def healthyInput : List Resp := [(⟨"doge", 0, 30000⟩, 2)]

/-- Bitcoin responders 1 and 7 in one chunk; probed with `probeNo7`,
responder 7 fails every probe. -/
def failInput : List Resp := [(⟨"bitcoin", 0, 30000⟩, 1), (⟨"bitcoin", 0, 30000⟩, 7)]

/-- Two bitcoin coverage points (fewer than 5 requested clusters) next
to five doge responders. -/
def mixedInput : List Resp :=
  [(⟨"bitcoin", 0, 100⟩, 7), (⟨"bitcoin", 0, 100⟩, 8),
   (⟨"doge", 0, 30000⟩, 1), (⟨"doge", 0, 30000⟩, 2), (⟨"doge", 0, 30000⟩, 3),
   (⟨"doge", 0, 30000⟩, 4), (⟨"doge", 0, 30000⟩, 5)]

/-! ### The claims -/

/-- C1: for every chunk with at least one non-failed probe outcome, the
scorer computes the majority value as the most frequent result among the
non-failed outcomes (ties broken by the first-encountered value in
outcome order, i.e. minimal first-occurrence index), and assigns each
non-failed responder the verdict (its measured latency, its result ==
majority value); in particular, for a chunk of 3 responders returning
results X, X, Y with latencies 50, 60, 9999, the verdicts are
responder1 = (50, true), responder2 = (60, true),
responder3 = (9999, false). -/
theorem claim1_consensus_scorer (br : List Outcome) (res : ResultsMap)
    (hshape : ∀ r ∈ br, ∃ u t o, r = (some u, some t, some o))
    (hne : br ≠ [])
    (hnodup : (br.map (fun r => r.1)).Nodup) :
    (∃ v, most_common (br.filterMap (fun r => r.2.2)) = some v ∧
      v ∈ br.filterMap (fun r => r.2.2) ∧
      (∀ w ∈ br.filterMap (fun r => r.2.2),
        countv (br.filterMap (fun r => r.2.2)) w ≤
          countv (br.filterMap (fun r => r.2.2)) v) ∧
      (∀ w ∈ br.filterMap (fun r => r.2.2),
        countv (br.filterMap (fun r => r.2.2)) w = countv (br.filterMap (fun r => r.2.2)) v →
          idxOfv (br.filterMap (fun r => r.2.2)) v ≤ idxOfv (br.filterMap (fun r => r.2.2)) w) ∧
      (∀ u t o, (some u, some t, some o) ∈ br →
        lookupKey (some u) (scoreChunk br res) = some (some t, decide (o = v)))) ∧
    scoreChunk brB [] =
      [(some 1, (some 50, true)), (some 2, (some 60, true)), (some 3, (some 9999, false))] := by
  refine ⟨?_, rfl⟩
  obtain ⟨v, hv, hvm, hmax, htie⟩ := most_common_sound _ (outputs_ne_nil hshape hne)
  refine ⟨v, hv, hvm, hmax, htie, ?_⟩
  intro u t o hmem
  have h := scoreChunk_lookup res hv hnodup (some u, some t, some o) hmem
  simpa using h

/-- C1 witness: Scenario B evaluated through the theorem. -/
theorem claim1_witness :
    lookupKey (some 3) (scoreChunk brB []) = some (some 9999, false) := by
  obtain ⟨⟨v, hv, _, _, _, hlook⟩, _⟩ := claim1_consensus_scorer brB []
    (by
      intro r hr
      simp only [brB, List.mem_cons] at hr
      rcases hr with rfl | rfl | rfl | hr
      · exact ⟨1, 50, "X", rfl⟩
      · exact ⟨2, 60, "X", rfl⟩
      · exact ⟨3, 9999, "Y", rfl⟩
      · simp at hr)
    (by simp [brB])
    (by decide)
  have hvx : v = "X" := by
    have hx : most_common (brB.filterMap (fun r => r.2.2)) = some "X" := rfl
    rw [hx] at hv
    exact (Option.some_inj.mp hv).symm
  have hfin := hlook 3 9999 "Y" (by simp [brB])
  rw [hvx] at hfin
  rw [hfin]
  decide

/-- C2: the claim states the cohort safe interval `[common_start,
common_end]` is a sub-interval of every member's claimed interval
(member.start ≤ common_start). The code computes `common_start` as the
MINIMUM of member starts, so a cohort of members claiming `[100, 500]`
and `[200, 600]` gets safe interval `[100, 500]`, which starts before
member 2's claimed start 200: the code violates the claimed invariant. -/
theorem claim2_safe_interval_not_subinterval :
    group_responses id kmOne 1 5 [respA, respB] =
      [("bitcoin", [(0, ⟨100, 500, [[respA, respB]]⟩)])] ∧
    respB.1.start_block_height = 200 ∧ ¬((200 : Int) ≤ 100) :=
  ⟨rfl, rfl, by decide⟩

/-- C3: for every cohort the builder produces, `common_start` is the
minimum of the members' claimed start bounds and `common_end` the
minimum of their claimed end bounds, hence `common_start ≤ member.start`
and `common_end ≤ member.end` for every member. -/
theorem claim3_cohort_minima (shuffleFn : List Resp → List Resp)
    (kmeansFn : Nat → List (Int × Int) → Except Unit (List Nat))
    (cluster_size chunk_size : Nat) (responses : List Resp)
    (hc : 0 < chunk_size)
    (ng : String × List (Nat × Cohort))
    (hng : ng ∈ group_responses shuffleFn kmeansFn cluster_size chunk_size responses)
    (lc : Nat × Cohort) (hlc : lc ∈ ng.2) :
    lc.2.common_start =
      intMin ((lc.2.responses.flatten).map (fun r => r.1.start_block_height)) ∧
    lc.2.common_end =
      intMin ((lc.2.responses.flatten).map (fun r => r.1.block_height)) ∧
    ∀ m ∈ lc.2.responses.flatten,
      lc.2.common_start ≤ m.1.start_block_height ∧ lc.2.common_end ≤ m.1.block_height := by
  obtain ⟨ng', hng', hp⟩ := group_responses_mem hng
  obtain ⟨labels, hk, h1, h2⟩ := processNetwork_mem hp
  rw [h2] at hlc
  obtain ⟨lg, hlg, hl1, hl2⟩ := buildCohorts_mem hlc
  rw [hl2]
  dsimp only
  rw [chunkEvery_flatten hc]
  refine ⟨rfl, rfl, ?_⟩
  intro m hm
  exact ⟨intMin_le (List.mem_map.mpr ⟨m, hm, rfl⟩), intMin_le (List.mem_map.mpr ⟨m, hm, rfl⟩)⟩

/-- C3 witness: the bounds hold for member `respB` of the concrete
two-member cohort. -/
theorem claim3_witness :
    (⟨100, 500, [[respA, respB]]⟩ : Cohort).common_start ≤ respB.1.start_block_height ∧
    (⟨100, 500, [[respA, respB]]⟩ : Cohort).common_end ≤ respB.1.block_height := by
  obtain ⟨_, _, h3⟩ := claim3_cohort_minima id kmOne 1 5 [respA, respB] (by decide)
    ("bitcoin", [(0, ⟨100, 500, [[respA, respB]]⟩)]) (by decide)
    (0, ⟨100, 500, [[respA, respB]]⟩) (by decide)
  exact h3 respB (by decide)

/-- C4 counterexample: at safe interval `[0, 1000000]` with
effective_diff 9900 (jitter 100), the claim requires the probed
sub-range `[block_number, block_number + 9900]`; the default script
instead produces `[500000, 510000]`, a width-10000 range (its
`build_query` call ignores the engine's jittered diff). -/
theorem claim4_counterexample :
    default_script 0 "bitcoin" 0 1000000 9900 = .ok (mkQueryString 500000 510000) ∧
    mkQueryString 500000 510000 ≠ mkQueryString 500000 509900 ∧
    (510000 : Int) ≠ 500000 + 9900 :=
  ⟨rfl, by decide, by decide⟩

/-- C4 amended: the synthesizer computes
`mid = common_start + (common_end - common_start) // 2` and picks
`block_number` uniformly in `[mid, common_end - 10000]`, probing
`[block_number, block_number + 10000]`, where 10000 is `build_query`'s
default width (the engine's jittered diff argument is ignored by the
default script); in particular, for safe interval `[1000, 21000]` it
picks exactly 11000 and probes `[11000, 21000]` for every random draw
and every diff argument. -/
theorem claim4_amended_synthesis (choice : Nat) (network : String) (cs ce d : Int)
    (h : cs + (ce - cs).fdiv 2 ≤ ce - 10000) :
    (∃ bn, default_script choice network cs ce d = .ok (mkQueryString bn (bn + 10000)) ∧
      cs + (ce - cs).fdiv 2 ≤ bn ∧ bn ≤ ce - 10000) ∧
    ∀ (choice' : Nat) (network' : String) (d' : Int),
      default_script choice' network' 1000 21000 d' = .ok (mkQueryString 11000 21000) := by
  constructor
  · obtain ⟨hlo, hhi⟩ := randint_mem h choice
    refine ⟨cs + (ce - cs).fdiv 2 +
      (choice : Int) % (ce - 10000 - (cs + (ce - cs).fdiv 2) + 1), ?_, hlo, hhi⟩
    show (build_query_block choice cs ce 10000).map
      (fun block_num => mkQueryString block_num (block_num + 10000)) = _
    rw [show build_query_block choice cs ce 10000 =
      randint choice (cs + (ce - cs).fdiv 2) (ce - 10000) from rfl]
    rw [randint_ok h choice]
    rfl
  · intro choice' network' d'
    show (build_query_block choice' 1000 21000 10000).map
      (fun block_num => mkQueryString block_num (block_num + 10000)) = _
    rw [show build_query_block choice' 1000 21000 10000 =
      randint choice' 11000 11000 from rfl]
    rw [randint_ok (by omega) choice']
    norm_num [Except.map]

/-- C4 witness: Scenario A through the amended theorem. -/
theorem claim4_witness :
    default_script 5 "bitcoin" 1000 21000 10000 = .ok (mkQueryString 11000 21000) :=
  (claim4_amended_synthesis 0 "bitcoin" 1000 21000 10000 (by decide)).2 5 "bitcoin" 10000

/-- C5: the engine computes `diff = benchmark_query_diff - randint(0, 100)`
and exposes it to the query script, but the default script's
`build_query(network, start_block, end_block)` call does not pass it, so
the jitter never changes the probed width: the script output is
identical for every diff argument, and the probed range always has
width 10000. -/
theorem claim5_jitter_ignored :
    default_script 0 "bitcoin" 0 1000000 9900 = default_script 0 "bitcoin" 0 1000000 10000 ∧
    default_script 0 "bitcoin" 0 1000000 9900 = .ok (mkQueryString 500000 510000) ∧
    ∀ (choice : Nat) (network : String) (cs ce d d' : Int),
      default_script choice network cs ce d = default_script choice network cs ce d' :=
  ⟨rfl, rfl, fun _ _ _ _ _ _ => rfl⟩

/-- C6: the claim states a too-narrow cohort is skipped and the pass
still completes with sibling verdicts. In the code nothing catches the
`ValueError` that `random.randint` raises when the pick interval
`[mid, common_end - diff]` is inverted (the try/except only wraps the
scoring block), so the exception unwinds the whole pass: with a bitcoin
cohort `[1000, 1500]` (mid 1250 > -8500) next to a healthy doge cohort,
`run_benchmarks` returns no verdicts at all, while the doge responder
alone would have received a verdict. -/
theorem claim6_narrow_cohort_aborts_pass :
    run_benchmarks cfgDef probeR (fun _ => 0) id kmOne narrowInput = .error () ∧
    run_benchmarks cfgDef probeR (fun _ => 0) id kmOne healthyInput =
      .ok [(some 2, (some 3, true))] :=
  ⟨rfl, rfl⟩

/-- C7 counterexample: queries are synthesized per chunk, not once per
cohort: a two-member cohort split into two chunks receives two distinct
query strings within the same pass. -/
theorem claim7_counterexample :
    issued_queries cfgChunk1 probeR (fun n => n) id kmOne twoResp =
      .ok [("bitcoin", 0,
        ⟨0, 30000, [[(⟨"bitcoin", 0, 30000⟩, 1)], [(⟨"bitcoin", 0, 30000⟩, 2)]]⟩,
        [mkQueryString 15001 25001, mkQueryString 15003 25003])] ∧
    mkQueryString 15001 25001 ≠ mkQueryString 15003 25003 :=
  ⟨rfl, by decide⟩

/-- C7 amended: exactly one benchmark query is synthesized per CHUNK
(the trace carries one query per chunk of each cohort), and that query
is issued unchanged to every member of its chunk, so results within a
chunk are directly comparable; different chunks of the same cohort may
receive different queries. -/
theorem claim7_amended_one_query_per_chunk (cfg : ValidatorConfig) (probe : Probe)
    (rand : Nat → Nat) (shuffleFn : List Resp → List Resp)
    (kmeansFn : Nat → List (Int × Int) → Except Unit (List Nat))
    (responses : List Resp) (m : ResultsMap) (tr : Trace)
    (h : runPass cfg probe rand shuffleFn kmeansFn responses = .ok (m, tr)) :
    (∀ e ∈ tr, e.2.2.2.length = e.2.2.1.responses.length) ∧
    ∀ (q : String) (chunk : List Resp) (r : Outcome),
      r ∈ execute_benchmarks probe chunk q → ∃ mem ∈ chunk, r = run_benchmark probe mem.2 q := by
  constructor
  · intro e he
    unfold runPass at h
    cases hrn : runNetworks cfg probe rand
        (group_responses shuffleFn kmeansFn cfg.benchmark_cluster_size
          cfg.benchmark_query_chunk_size responses) 0 [] [] with
    | error e' =>
      simp only [hrn, bind_error_eq] at h
      cases h
    | ok st =>
      obtain ⟨ctr1, results1, tr1⟩ := st
      simp only [hrn, bind_ok_eq, pure, Except.pure, Except.ok.injEq, Prod.mk.injEq] at h
      obtain ⟨h1, h2⟩ := h
      subst h2
      rcases runNetworks_trace cfg probe rand _ _ _ _ _ hrn e he with
        hmem | ⟨ng, _, lc, _, _, _, h3, h4⟩
      · simp at hmem
      · rw [h3]
        exact h4
  · intro q chunk r hr
    obtain ⟨mem, hmem, t, o, hp, hre⟩ := execute_benchmarks_mem hr
    refine ⟨mem, hmem, ?_⟩
    rw [hre]
    simp [run_benchmark, hp]

/-- C7 witness: the amended per-chunk property at the concrete
two-chunk cohort of the counterexample input. -/
theorem claim7_witness :
    ([mkQueryString 15001 25001, mkQueryString 15003 25003] : List String).length =
      (⟨0, 30000, [[(⟨"bitcoin", 0, 30000⟩, 1)], [(⟨"bitcoin", 0, 30000⟩, 2)]]⟩ :
        Cohort).responses.length := by
  have h := (claim7_amended_one_query_per_chunk cfgChunk1 probeR (fun n => n) id kmOne
    twoResp [(some 1, (some 3, true)), (some 2, (some 3, true))]
    [("bitcoin", 0,
      ⟨0, 30000, [[(⟨"bitcoin", 0, 30000⟩, 1)], [(⟨"bitcoin", 0, 30000⟩, 2)]]⟩,
      [mkQueryString 15001 25001, mkQueryString 15003 25003])] rfl).1
  exact h _ (List.mem_singleton.mpr rfl)

/-- C8: a responder `u` all of whose probes fail gets no entry in the
verdict map of a successful pass, and a chunk all of whose probes fail
produces an empty filtered result list (so its scoring is skipped and
it contributes no verdicts). -/
theorem claim8_failed_responder_absent (cfg : ValidatorConfig) (probe : Probe)
    (rand : Nat → Nat) (shuffleFn : List Resp → List Resp)
    (kmeansFn : Nat → List (Int × Int) → Except Unit (List Nat))
    (responses : List Resp) (u : Nat) (m : ResultsMap)
    (hfail : ∀ q, probe u q = none)
    (hrun : run_benchmarks cfg probe rand shuffleFn kmeansFn responses = .ok m) :
    lookupKey (some u) m = none ∧
    ∀ (q : String) (chunk : List Resp),
      (∀ mem ∈ chunk, probe mem.2 q = none) → execute_benchmarks probe chunk q = [] := by
  constructor
  · apply lookupKey_eq_none
    intro v hv
    obtain ⟨ng, _, lc, _, chunk, _, mem, _, q, t, o, hp1, hp2⟩ :=
      run_benchmarks_mem cfg probe rand shuffleFn kmeansFn responses m hrun (some u, v) hv
    have hue : u = mem.2 := by simpa using hp1
    rw [← hue, hfail q] at hp2
    cases hp2
  · intro q chunk hall
    exact execute_benchmarks_all_fail hall

/-- C8 witness: responder 7 (all probes failed) absent from the
concrete verdict map. -/
theorem claim8_witness :
    lookupKey (some 7) [(some 1, (some 4, true))] = none :=
  (claim8_failed_responder_absent cfgDef probeNo7 (fun _ => 0) id kmOne failInput 7
    [(some 1, (some 4, true))] (fun _ => rfl) rfl).1

/-- C9: if clustering a network's coverage points fails with
`ValueError`, that network is absent from the grouped output (skipped
for the pass), and a responder `u` appearing only under that network
receives no verdict; the pass itself still returns the verdicts of the
other networks (exercised by the witness). -/
theorem claim9_infeasible_network_skipped (cfg : ValidatorConfig) (probe : Probe)
    (rand : Nat → Nat) (shuffleFn : List Resp → List Resp)
    (kmeansFn : Nat → List (Int × Int) → Except Unit (List Nat))
    (responses : List Resp) (net : String) (u : Nat) (m : ResultsMap)
    (hs : ∀ l, (shuffleFn l).Perm l)
    (hk : kmeansFn cfg.benchmark_cluster_size (dataOf net responses) = .error ())
    (hu : ∀ mem ∈ responses, mem.2 = u → mem.1.network = net)
    (hrun : run_benchmarks cfg probe rand shuffleFn kmeansFn responses = .ok m) :
    (∀ cohorts, (net, cohorts) ∉ group_responses shuffleFn kmeansFn
        cfg.benchmark_cluster_size cfg.benchmark_query_chunk_size responses) ∧
    lookupKey (some u) m = none := by
  have hskip : ∀ cohorts, (net, cohorts) ∉ group_responses shuffleFn kmeansFn
      cfg.benchmark_cluster_size cfg.benchmark_query_chunk_size responses := by
    intro cohorts hmem
    obtain ⟨ng', hng', hp⟩ := group_responses_mem hmem
    obtain ⟨labels, hkm, h1, h2⟩ := processNetwork_mem hp
    have h1' : net = ng'.1 := h1
    have hl := networkGroups_lookup hng'
    rw [← h1'] at hl
    have hdata : dataOf net responses = dataPoints ng'.2 := by
      unfold dataOf
      rw [hl]
      rfl
    rw [hdata, hkm] at hk
    simp at hk
  refine ⟨hskip, ?_⟩
  apply lookupKey_eq_none
  intro v hv
  obtain ⟨ng, hng, lc, hlc, chunk, hchunk, mem, hmem, q, t, o, hp1, hp2⟩ :=
    run_benchmarks_mem cfg probe rand shuffleFn kmeansFn responses m hrun (some u, v) hv
  have hue : u = mem.2 := by simpa using hp1
  have hsound := cohort_member_sound hs hng hlc hchunk hmem
  have hnet : mem.1.network = net := hu mem hsound.1 hue.symm
  have hng1 : ng.1 = net := by rw [← hnet, hsound.2]
  exact hskip ng.2 (by rw [← hng1]; exact hng)

/-- C9 witness: bitcoin has 2 coverage points against 5 requested
clusters, so clustering raises and bitcoin's responder 7 gets no
verdict, while the five doge responders all do. -/
theorem claim9_witness :
    lookupKey (some 7)
      [(some 1, (some 3, true)), (some 2, (some 3, true)), (some 3, (some 3, true)),
       (some 4, (some 3, true)), (some 5, (some 3, true))] = none :=
  (claim9_infeasible_network_skipped cfgClust5 probeR (fun _ => 0) id kmStrict mixedInput
    "bitcoin" 7
    [(some 1, (some 3, true)), (some 2, (some 3, true)), (some 3, (some 3, true)),
     (some 4, (some 3, true)), (some 5, (some 3, true))]
    (fun l => List.Perm.refl l) rfl (by decide) rfl).2

/-- C10: `run_benchmark` is all-or-nothing: it returns either the
uniform failure triple (none, none, none) or a triple with all three
components present (the uid, the measured latency, the non-None
output); hence a present result component implies present uid and
latency, and the verdict map of a successful pass never holds an entry
keyed by the absent uid. -/
theorem claim10_outcome_all_or_nothing :
    (∀ (probe : Probe) (uid : Nat) (q : String),
      run_benchmark probe uid q = (none, none, none) ∨
      ∃ t o, probe uid q = some (t, o) ∧
        run_benchmark probe uid q = (some uid, some t, some o)) ∧
    (∀ (probe : Probe) (uid : Nat) (q : String),
      (run_benchmark probe uid q).2.2.isSome →
      (run_benchmark probe uid q).1.isSome ∧ (run_benchmark probe uid q).2.1.isSome) ∧
    ∀ (cfg : ValidatorConfig) (probe : Probe) (rand : Nat → Nat)
      (shuffleFn : List Resp → List Resp)
      (kmeansFn : Nat → List (Int × Int) → Except Unit (List Nat))
      (responses : List Resp) (m : ResultsMap),
      run_benchmarks cfg probe rand shuffleFn kmeansFn responses = .ok m →
      lookupKey none m = none := by
  refine ⟨run_benchmark_cases, ?_, ?_⟩
  · intro probe uid q h
    rcases run_benchmark_cases probe uid q with he | ⟨t, o, _, he⟩
    · rw [he] at h
      simp at h
    · rw [he]
      simp
  · intro cfg probe rand shuffleFn kmeansFn responses m hrun
    apply lookupKey_eq_none
    intro v hv
    obtain ⟨_, _, _, _, _, _, mem, _, q, t, o, hp1, _⟩ :=
      run_benchmarks_mem cfg probe rand shuffleFn kmeansFn responses m hrun (none, v) hv
    simp at hp1

/-- C10 witness: a successful probe has all three components, and the
concrete verdict map of a pass with a failing responder holds no entry
keyed by the absent uid. -/
theorem claim10_witness :
    ((run_benchmark probeR 5 "RETURN 1").1.isSome ∧
      (run_benchmark probeR 5 "RETURN 1").2.1.isSome) ∧
    lookupKey none [(some 1, (some 4, true))] = none :=
  ⟨claim10_outcome_all_or_nothing.2.1 probeR 5 "RETURN 1" rfl,
   claim10_outcome_all_or_nothing.2.2 cfgDef probeNo7 (fun _ => 0) id kmOne failInput
     [(some 1, (some 4, true))] rfl⟩

end BenchSubnet
